import Mathlib

set_option maxHeartbeats 1000000

/-! Verification development for the i3core pseudorandom number generator
(src/i3prng.h, class i3::core::Prng).

The header defines an xorshift128 generator with a 128-bit state of four
unsigned 32-bit words.  Machine integers are embedded as `Nat` (unsigned) or
`Int` (signed) with explicit reduction modulo 2^32 wherever the C++ arithmetic
wraps; the mutating methods become functions from the generator to a value
paired with the updated generator.  The header's method bodies use the names
`rand32` and `rand` for the members declared as `random32` and `random`; per
the design notes the inline-defined algorithm is the intended behaviour, so
those calls are embedded as calls to `random32` and `random`.

The bodies of the seed-buffer constructor and of the parameterized-split
constructor are not part of the repository source (the header only declares
them), so those two operations are modelled from the spec; their doc comments
say so explicitly. -/

/-- Internal PRNG state: four unsigned 32-bit words (struct State,
src/i3prng.h lines 19-21).  Each word is a `Nat`; well-formed states keep
every word below 2^32 (see `State.WF`). -/
structure State where
  a : Nat
  b : Nat
  c : Nat
  d : Nat
deriving DecidableEq

/-- The Prng class: owns exactly one State (field `_state`, src/i3prng.h
line 24). -/
structure Prng where
  _state : State
deriving DecidableEq

/-- Well-formedness: the C++ state words have type uint32_t, so each is
below 2^32. -/
def State.WF (s : State) : Prop :=
  s.a < 2 ^ 32 ∧ s.b < 2 ^ 32 ∧ s.c < 2 ^ 32 ∧ s.d < 2 ^ 32

instance (s : State) : Decidable s.WF := by
  unfold State.WF; infer_instance

/-- Well-formedness of a generator: its state is well-formed. -/
def Prng.WF (p : Prng) : Prop := p._state.WF

instance (p : Prng) : Decidable p.WF := by
  unfold Prng.WF; infer_instance

/-- Embedding of `uint32_t Prng::random32()` (src/i3prng.h lines 58-67).
The C++ body reads the fields in order (t = d; s = a; d = c; c = b; b = s),
xorshifts t by `t ^= t << 11; t ^= t >> 8`, stores `a = t ^ s ^ (s >> 19)`
and returns the new a.  The uint32_t left shift wraps modulo 2^32 (embedded
as an explicit `% 2 ^ 32`); right shifts on `Nat` are logical, exactly as on
uint32_t. -/
def Prng.random32 (p : Prng) : Nat × Prng :=
  let t := p._state.d
  let s := p._state.a
  let d := p._state.c
  let c := p._state.b
  let b := s
  let t := t ^^^ ((t <<< 11) % 2 ^ 32)
  let t := t ^^^ (t >>> 8)
  let a := t ^^^ s ^^^ (s >>> 19)
  (a, ⟨⟨a, b, c, d⟩⟩)

/-- Transcription of the step sequence of spec.md section 4.2, written from
the spec pseudocode (t = d; s = a; d = c; c = b; b = s; t ^= t << 11;
t ^= t >> 8; a = t ^ s ^ (s >> 19); return a) for comparison with the
source-derived `Prng.random32`. -/
def xor128Spec (st : State) : Nat × State :=
  let t := st.d
  let s := st.a
  let d := st.c
  let c := st.b
  let b := s
  let t := t ^^^ ((t <<< 11) % 2 ^ 32)
  let t := t ^^^ (t >>> 8)
  let a := t ^^^ s ^^^ (s >>> 19)
  (a, ⟨a, b, c, d⟩)

/-- Closed form of the value produced by one step. -/
def stepVal (s : State) : Nat :=
  let t := s.d ^^^ ((s.d <<< 11) % 2 ^ 32)
  let t2 := t ^^^ (t >>> 8)
  t2 ^^^ s.a ^^^ (s.a >>> 19)

/-- Embedding of `uint32_t Prng::random(uint32_t n)` (src/i3prng.h lines
70-72): `uint32_t((n * uint64_t{rand32()}) >> 32)`.  The 64-bit product of
two 32-bit values cannot wrap, so the multiply is exact; the outer uint32_t
cast is the final `% 2 ^ 32`.  The body's callee name `rand32` is embedded
as `random32` per the design notes. -/
def Prng.random (n : Nat) (p : Prng) : Nat × Prng :=
  let r := (p.random32).1
  (((n * r) >>> 32) % 2 ^ 32, (p.random32).2)

/-- Embedding of `uint32_t Prng::random0toN(uint32_t n)` (src/i3prng.h lines
75-77): `(n < std::numeric_limits<uint32_t>.max) ? rand(n+1) : rand32()`,
with uint32_t max being 2^32 - 1 and the callees embedded as `random` and
`random32`. -/
def Prng.random0toN (n : Nat) (p : Prng) : Nat × Prng :=
  if n < 2 ^ 32 - 1 then p.random (n + 1) else p.random32

/-- Reinterpretation of an unsigned 32-bit pattern as a signed int32
(two's-complement), modelling `reinterpret_cast<int32_t>`. -/
def toSigned (x : Nat) : Int :=
  if x < 2 ^ 31 then (x : Int) else (x : Int) - 2 ^ 32

/-- Wrapping int32 arithmetic: reduce an integer to the value of its 32-bit
two's-complement representative. -/
def wrap32 (x : Int) : Int := toSigned (x % 2 ^ 32).toNat

/-- Embedding of `int32_t Prng::randomRange(int32_t i, int32_t j)`
(src/i3prng.h lines 80-84): take min and max of (i, j), reinterpret the
int32 difference `mm.second - mm.first` as uint32 (wrapping two's-complement
semantics, modelled by the explicit `% 2 ^ 32` and `toNat`), draw
`random0toN` of that difference, reinterpret the draw as int32 and add it
to the minimum with wrapping int32 addition (`wrap32`). -/
def Prng.randomRange (i j : Int) (p : Prng) : Int × Prng :=
  let lo := min i j
  let hi := max i j
  let unsignedDiff : Nat := ((hi - lo) % 2 ^ 32).toNat
  let r := (p.random0toN unsignedDiff).1
  (wrap32 (lo + toSigned r), (p.random0toN unsignedDiff).2)

/-- Embedding of `State Prng::state() const` (src/i3prng.h line 93): returns
the internal state; the method is const, so in the embedding it is a plain
function of the generator. -/
def Prng.state (p : Prng) : State := p._state

/-- Embedding of the constructor `Prng(State state) : _state{state}`
(src/i3prng.h line 55): stores the given state unchanged, with no
validation. -/
def Prng.fromState (st : State) : Prng := ⟨st⟩

/-- First n outputs of `random32`, in order. -/
def Prng.outSeq (n : Nat) (p : Prng) : List Nat :=
  match n with
  | 0 => []
  | m + 1 => (p.random32).1 :: Prng.outSeq m (p.random32).2

/-- Generator obtained after n calls to `random32`. -/
def Prng.stepN (n : Nat) (p : Prng) : Prng :=
  match n with
  | 0 => p
  | m + 1 => Prng.stepN m (p.random32).2

/-- Modelled from the spec: one byte-mixing step of the hash routine used by
seeding and splitting.  The body of the hash is not in src (only the
constructor declarations are); any fixed, deterministic, well-distributed
byte hash satisfies the spec, and this FNV-1a style step is such a fixed
choice. -/
def mixByte (h b : Nat) : Nat := ((h ^^^ (b % 256)) * 16777619) % 2 ^ 32

/-- Modelled from the spec: the shared hash routine, parameterized by a
domain tag (spec.md section 4.4: seed vs. plain-split vs. parameterized
split use one routine with distinct domain tags).  It folds the tag and the
buffer bytes through `mixByte` and expands the accumulator into four state
words. -/
def hashBuffer (tag : Nat) (bytes : List Nat) : State :=
  let h := (tag :: bytes).foldl mixByte 2166136261
  ⟨h, (h * 2246822519 + 1) % 2 ^ 32,
    (h * 3266489917 + 2) % 2 ^ 32, (h * 668265263 + 3) % 2 ^ 32⟩

/-- Serialization of a 32-bit word into four little-endian bytes (spec.md
section 6: persisted layout is four little-endian words a, b, c, d). -/
def wordBytes (w : Nat) : List Nat :=
  [w % 256, w / 256 % 256, w / 65536 % 256, w / 16777216 % 256]

/-- Serialization of a State into its 16-byte buffer, words a, b, c, d in
order. -/
def stateBytes (st : State) : List Nat :=
  wordBytes st.a ++ wordBytes st.b ++ wordBytes st.c ++ wordBytes st.d

/-- Modelled from the spec: the seed-buffer constructor
`Prng(const std::vector<byte> &seed)` (declared at src/i3prng.h line 30; its
body is not in src).  Per spec.md section 4.1 it hashes the buffer into the
four state words deterministically and, if the hash output is the degenerate
all-zero state, applies a fixed fallback perturbation: set a reserved bit
(bit 31 of word a). -/
def Prng.mkSeed (seed : List Nat) : Prng :=
  if (hashBuffer 0 seed).a = 0 ∧ (hashBuffer 0 seed).b = 0 ∧
      (hashBuffer 0 seed).c = 0 ∧ (hashBuffer 0 seed).d = 0 then
    ⟨⟨2 ^ 31, (hashBuffer 0 seed).b, (hashBuffer 0 seed).c,
      (hashBuffer 0 seed).d⟩⟩
  else ⟨hashBuffer 0 seed⟩

/-- Modelled from the spec: the parameterized-split constructor
`Prng(const Prng &prng, std::vector<byte> &parameterBuffer)` (declared at
src/i3prng.h lines 32-37; its body is not in src).  Per the declaration's
doc comment and spec.md section 4.4 it combines the source state with the
parameter buffer using the shared hash (here: domain tag 2 over the 16
serialized state bytes followed by the parameter bytes) and does not mutate
the source.  The result pairs the child with the source as it stands after
construction. -/
def Prng.splitParam (p : Prng) (params : List Nat) : Prng × Prng :=
  (⟨hashBuffer 2 (stateBytes p._state ++ params)⟩, p)

/-- Fuel-driven binary logarithm so that the definition is structural and
evaluates inside the kernel. -/
def log2Aux : Nat → Nat → Nat
  | 0, _ => 0
  | fuel + 1, n => if n < 2 then 0 else log2Aux fuel (n / 2) + 1

/-- Binary logarithm (floor of log base 2), with fuel n, which suffices for
every positive n. -/
def nlog2 (n : Nat) : Nat := log2Aux n n

/-- Round-to-nearest integer with ties to even, on rationals; the rounding
rule of IEEE-754 default rounding. -/
def rneZ (q : ℚ) : ℤ :=
  if q - ⌊q⌋ < 1 / 2 then ⌊q⌋
  else if 1 / 2 < q - ⌊q⌋ then ⌊q⌋ + 1
  else if ⌊q⌋ % 2 = 0 then ⌊q⌋ else ⌊q⌋ + 1

/-- Binary exponent of a positive rational: the unique e with
2^e ≤ q < 2^(e+1), computed from the bit lengths of numerator and
denominator with a one-step correction. -/
def qexp (q : ℚ) : ℤ :=
  if 2 ^ ((nlog2 q.num.natAbs : ℤ) - nlog2 q.den + 1) ≤ q then
    (nlog2 q.num.natAbs : ℤ) - nlog2 q.den + 1
  else if 2 ^ ((nlog2 q.num.natAbs : ℤ) - nlog2 q.den) ≤ q then
    (nlog2 q.num.natAbs : ℤ) - nlog2 q.den
  else (nlog2 q.num.natAbs : ℤ) - nlog2 q.den - 1

/-- Rounding of a rational to p significant binary digits,
round-to-nearest ties-to-even: the exact IEEE-754 rounding of a real result
to a binary floating-point format with a p-bit significand (p = 24 for
float/binary32, p = 53 for double/binary64), away from the overflow and
subnormal ranges, which the values arising here never reach. -/
def rneQprec (p : ℕ) (q : ℚ) : ℚ :=
  (rneZ (q * 2 ^ ((p : ℤ) - 1 - qexp q)) : ℚ) * 2 ^ (-((p : ℤ) - 1 - qexp q))

/-- Integer-level round-to-nearest ties-to-even of n to a multiple of 2^k. -/
def rne (n k : Nat) : Nat :=
  if n % 2 ^ k < 2 ^ (k - 1) then n / 2 ^ k * 2 ^ k
  else if 2 ^ (k - 1) < n % 2 ^ k then (n / 2 ^ k + 1) * 2 ^ k
  else if n / 2 ^ k % 2 = 0 then n / 2 ^ k * 2 ^ k
  else (n / 2 ^ k + 1) * 2 ^ k

/-- Conversion of a uint32 value to float (IEEE-754 binary32): exact below
2^24, otherwise rounded to 24 significant bits, ties to even. -/
def toF32 (n : Nat) : Nat := if n < 2 ^ 24 then n else rne n (nlog2 n - 23)

/-- Value of the constant `constexpr float reciprocal = 1.0 / UINT32_MAX`
(src/i3prng.h line 88): the double division 1.0/(2^32 - 1) is rounded to
binary64 and the result is rounded again to binary32 for the float
initialization. -/
def reciprocalF : ℚ := rneQprec 24 (rneQprec 53 (1 / (2 ^ 32 - 1)))

/-- Embedding of `double Prng::randomReal()` (src/i3prng.h lines 87-90):
`constexpr float reciprocal = 1.0 / UINT32_MAX; return reciprocal * rand32();`.
The constant is declared float, so its value is `reciprocalF` (binary32).
In `reciprocal * rand32()` the uint32 factor is converted to float
(`toF32`), the float multiplication rounds the exact product back to
binary32 (`rneQprec 24`), and the float-to-double conversion of the return
value is exact, so it adds nothing.  All values are represented exactly as
rationals; IEEE-754 round-to-nearest-even is the default rounding mode and
the only one in scope.  The callee name `rand32` is embedded as `random32`
per the design notes. -/
def Prng.randomReal (p : Prng) : ℚ × Prng :=
  (rneQprec 24 (reciprocalF * (toF32 (p.random32).1 : ℚ)), (p.random32).2)

theorem random32_eq (p : Prng) :
    p.random32 =
      (stepVal p._state,
        ⟨⟨stepVal p._state, p._state.a, p._state.b, p._state.c⟩⟩) := rfl

theorem xor128Spec_eq (st : State) :
    xor128Spec st = (stepVal st, ⟨stepVal st, st.a, st.b, st.c⟩) := rfl

theorem shiftRight_lt_of_lt {x n k : Nat} (h : x < n) : x >>> k < n := by
  calc x >>> k ≤ x := by
        rw [Nat.shiftRight_eq_div_pow]; exact Nat.div_le_self _ _
    _ < n := h

theorem stepVal_lt {s : State} (h : s.WF) : stepVal s < 2 ^ 32 := by
  obtain ⟨ha, _, _, hd⟩ := h
  have h1 : s.d ^^^ ((s.d <<< 11) % 2 ^ 32) < 2 ^ 32 :=
    Nat.xor_lt_two_pow hd (Nat.mod_lt _ (by norm_num))
  have h2 : s.d ^^^ ((s.d <<< 11) % 2 ^ 32) ^^^
      ((s.d ^^^ ((s.d <<< 11) % 2 ^ 32)) >>> 8) < 2 ^ 32 :=
    Nat.xor_lt_two_pow h1 (shiftRight_lt_of_lt h1)
  exact Nat.xor_lt_two_pow (Nat.xor_lt_two_pow h2 ha) (shiftRight_lt_of_lt ha)

theorem random32_val_lt {p : Prng} (h : p.WF) : (p.random32).1 < 2 ^ 32 := by
  rw [random32_eq]; exact stepVal_lt h

theorem random32_WF {p : Prng} (h : p.WF) : (p.random32).2.WF := by
  rw [random32_eq]
  exact ⟨stepVal_lt h, h.1, h.2.1, h.2.2.1⟩

theorem random_val_eq {n : Nat} (p : Prng) (hn : n < 2 ^ 32) (h : p.WF) :
    (p.random n).1 = n * (p.random32).1 / 2 ^ 32 := by
  have hr := random32_val_lt h
  show (n * (p.random32).1) >>> 32 % 2 ^ 32 = n * (p.random32).1 / 2 ^ 32
  rw [Nat.shiftRight_eq_div_pow]
  apply Nat.mod_eq_of_lt
  calc n * (p.random32).1 / 2 ^ 32 ≤ n * 2 ^ 32 / 2 ^ 32 :=
        Nat.div_le_div_right (Nat.mul_le_mul_left n (Nat.le_of_lt hr))
    _ = n := Nat.mul_div_cancel n (by norm_num)
    _ < 2 ^ 32 := hn

theorem random_val_lt {n : Nat} (p : Prng) (hn0 : 0 < n) (hn : n < 2 ^ 32)
    (h : p.WF) : (p.random n).1 < n := by
  have hr := random32_val_lt h
  rw [random_val_eq p hn h]
  rw [Nat.div_lt_iff_lt_mul (by norm_num : 0 < 2 ^ 32)]
  exact mul_lt_mul_of_pos_left hr hn0

theorem random0toN_val_le {n : Nat} (p : Prng) (hn : n < 2 ^ 32)
    (h : p.WF) : (p.random0toN n).1 ≤ n := by
  unfold Prng.random0toN
  by_cases hlt : n < 2 ^ 32 - 1
  · rw [if_pos hlt]
    exact Nat.lt_succ_iff.mp (random_val_lt p (Nat.succ_pos n) (by omega) h)
  · rw [if_neg hlt]
    have := random32_val_lt h
    omega

theorem log2Aux_spec (fuel : Nat) : ∀ n : Nat, 1 ≤ n → n ≤ fuel →
    2 ^ log2Aux fuel n ≤ n ∧ n < 2 ^ (log2Aux fuel n + 1) := by
  induction fuel with
  | zero => intro n h1 h2; omega
  | succ f ih =>
    intro n h1 h2
    by_cases hn : n < 2
    · simp only [log2Aux, if_pos hn]
      norm_num; omega
    · have hrec := ih (n / 2) (by omega) (by omega)
      simp only [log2Aux, if_neg hn]
      rw [pow_succ, pow_succ] at *
      omega
theorem nlog2_spec {n : Nat} (h : 1 ≤ n) :
    2 ^ nlog2 n ≤ n ∧ n < 2 ^ (nlog2 n + 1) :=
  log2Aux_spec n n h (Nat.le_refl n)
theorem qexp_spec {q : ℚ} (hq : 0 < q) :
    (2 : ℚ) ^ qexp q ≤ q ∧ q < 2 ^ (qexp q + 1) := by
  have hnum : 0 < q.num := Rat.num_pos.mpr hq
  have hden : 0 < q.den := q.pos
  have hA := nlog2_spec (n := q.num.natAbs) (by omega)
  have hB := nlog2_spec (n := q.den) (by omega)
  set La := nlog2 q.num.natAbs with hLa
  set Lb := nlog2 q.den with hLb
  have hqeq : q = (q.num.natAbs : ℚ) / (q.den : ℚ) := by
    rw [Int.cast_natAbs]
    rw [abs_of_pos (by exact_mod_cast hnum)]
    exact (Rat.num_div_den q).symm
  have hcast : ∀ k : Nat, ((2 : ℚ) ^ (k : ℤ)) = (2 : ℚ) ^ (k : ℕ) := by
    intro k; exact zpow_natCast 2 k
  have hdenpos : (0 : ℚ) < (q.den : ℚ) := by exact_mod_cast hden
  have hupper : q < 2 ^ ((La : ℤ) - Lb + 1) := by
    have h1 : (q.num.natAbs : ℚ) < 2 ^ (La + 1) := by exact_mod_cast hA.2
    have h2 : (2 : ℚ) ^ Lb ≤ (q.den : ℚ) := by exact_mod_cast hB.1
    have key : q < 2 ^ (La + 1) / 2 ^ Lb := by
      rw [hqeq, div_lt_div_iff₀ hdenpos (by positivity)]
      calc (q.num.natAbs : ℚ) * 2 ^ Lb < 2 ^ (La + 1) * 2 ^ Lb := by
            exact mul_lt_mul_of_pos_right h1 (by positivity)
        _ ≤ 2 ^ (La + 1) * (q.den : ℚ) := by
            exact mul_le_mul_of_nonneg_left h2 (by positivity)
    calc q < 2 ^ (La + 1) / 2 ^ Lb := key
      _ = 2 ^ ((La : ℤ) - Lb + 1) := by
          rw [show (La : ℤ) - Lb + 1 = ((La + 1 : ℕ) : ℤ) - (Lb : ℤ) by push_cast; ring]
          rw [zpow_sub₀ (by norm_num : (2:ℚ) ≠ 0), hcast, hcast]
  have hlower : (2 : ℚ) ^ ((La : ℤ) - Lb - 1) ≤ q := by
    have h1 : (2 : ℚ) ^ La ≤ (q.num.natAbs : ℚ) := by exact_mod_cast hA.1
    have h2 : (q.den : ℚ) < 2 ^ (Lb + 1) := by exact_mod_cast hB.2
    have key : 2 ^ La / 2 ^ (Lb + 1) ≤ q := by
      rw [hqeq, div_le_div_iff₀ (by positivity) hdenpos]
      calc (2 : ℚ) ^ La * (q.den : ℚ) ≤ (q.num.natAbs : ℚ) * (q.den : ℚ) := by
            exact mul_le_mul_of_nonneg_right h1 (by positivity)
        _ ≤ (q.num.natAbs : ℚ) * 2 ^ (Lb + 1) := by
            apply mul_le_mul_of_nonneg_left (le_of_lt h2) (by positivity)
    calc (2 : ℚ) ^ ((La : ℤ) - Lb - 1)
        = 2 ^ La / 2 ^ (Lb + 1) := by
          rw [show (La : ℤ) - Lb - 1 = ((La : ℕ) : ℤ) - ((Lb + 1 : ℕ) : ℤ) by push_cast; ring]
          rw [zpow_sub₀ (by norm_num : (2:ℚ) ≠ 0), hcast, hcast]
      _ ≤ q := key
  unfold qexp
  rw [← hLa, ← hLb]
  split_ifs with h1 h2
  · exact absurd h1 (not_le.mpr hupper)
  · exact ⟨h2, hupper⟩
  · constructor
    · exact hlower
    · rw [show (La : ℤ) - Lb - 1 + 1 = (La : ℤ) - Lb by ring]
      exact lt_of_not_le h2
theorem qexp_unique {q : ℚ} (e : ℤ) (hq : 0 < q)
    (h1 : (2 : ℚ) ^ e ≤ q) (h2 : q < 2 ^ (e + 1)) : qexp q = e := by
  have hs := qexp_spec hq
  by_contra hne
  rcases lt_or_gt_of_ne hne with hlt | hgt
  · have : (2 : ℚ) ^ (qexp q + 1) ≤ 2 ^ e :=
      zpow_le_zpow_right₀ (by norm_num) (by omega)
    linarith [hs.2]
  · have : (2 : ℚ) ^ (e + 1) ≤ 2 ^ qexp q :=
      zpow_le_zpow_right₀ (by norm_num) (by omega)
    linarith [hs.1]
theorem rneZ_intCast (z : ℤ) : rneZ (z : ℚ) = z := by
  unfold rneZ
  rw [Int.floor_intCast, sub_self, if_pos (by norm_num)]
theorem rneZ_eq_of_lt_half {q : ℚ} {z : ℤ} (h1 : (z : ℚ) ≤ q)
    (h2 : q < z + 1) (h3 : q - z < 1 / 2) : rneZ q = z := by
  have hf : ⌊q⌋ = z := by
    rw [Int.floor_eq_iff]
    · exact ⟨h1, by exact_mod_cast h2⟩
  unfold rneZ
  rw [hf, if_pos h3]
theorem zpow_merge (x y : ℤ) : (2 : ℚ) ^ x * 2 ^ y = 2 ^ (x + y) :=
  (zpow_add₀ (by norm_num : (2 : ℚ) ≠ 0) x y).symm
theorem rneZ_zero : rneZ (0 : ℚ) = 0 := by
  have h := rneZ_intCast 0
  simpa using h
theorem rneQprec24_exact_aux {m : ℕ} {t : ℤ} {q : ℚ} (hq : q = (m : ℚ) * 2 ^ t)
    (hmpos : 0 < m) (hle : qexp q ≤ t + 23) : rneQprec 24 q = q := by
  have hqpos : 0 < q := by rw [hq]; positivity
  set e := qexp q with hedef
  have hcast : (((m : ℤ) * 2 ^ (t + 23 - e).toNat : ℤ) : ℚ) =
      (m : ℚ) * 2 ^ (((t + 23 - e).toNat : ℕ)) := by
    push_cast
    ring
  have hz1 : q * 2 ^ ((24 : ℤ) - 1 - e) =
      (((m : ℤ) * 2 ^ (t + 23 - e).toNat : ℤ) : ℚ) := by
    rw [hq, mul_assoc, zpow_merge, hcast, ← zpow_natCast (2 : ℚ) (t + 23 - e).toNat,
      show t + ((24 : ℤ) - 1 - e) = (((t + 23 - e).toNat : ℕ) : ℤ) from by omega]
  have hz2 : q = (((m : ℤ) * 2 ^ (t + 23 - e).toNat : ℤ) : ℚ) *
      2 ^ (-((24 : ℤ) - 1 - e)) := by
    rw [hq, hcast, ← zpow_natCast (2 : ℚ) (t + 23 - e).toNat, mul_assoc, zpow_merge,
      show ((((t + 23 - e).toNat : ℕ) : ℤ) + -((24 : ℤ) - 1 - e)) = t from by omega]
  unfold rneQprec
  simp only [Nat.cast_ofNat]
  rw [← hedef, hz1, rneZ_intCast, ← hz2]
theorem rneQprec_exact {m : ℕ} {t : ℤ} {q : ℚ} (hq : q = (m : ℚ) * 2 ^ t)
    (hm : m ≤ 2 ^ 24) : rneQprec 24 q = q := by
  rcases Nat.eq_zero_or_pos m with hm0 | hmpos
  · subst hm0
    simp only [Nat.cast_zero, zero_mul] at hq
    subst hq
    unfold rneQprec
    rw [zero_mul, rneZ_zero]
    norm_num
  · rcases Nat.lt_or_ge m (2 ^ 24) with hmlt | hmge
    · apply rneQprec24_exact_aux hq hmpos
      by_contra hc
      push_neg at hc
      have hq2 : q < (2 : ℚ) ^ (t + 24) := by
        rw [hq]
        calc (m : ℚ) * 2 ^ t < (2 : ℚ) ^ (24 : ℕ) * 2 ^ t := by
              apply mul_lt_mul_of_pos_right _ (by positivity)
              exact_mod_cast hmlt
          _ = 2 ^ (t + 24) := by
              rw [← zpow_natCast (2 : ℚ) 24, zpow_merge]
              ring_nf
      obtain ⟨he1, _⟩ := qexp_spec (show (0:ℚ) < q from by rw [hq]; positivity)
      have hle2 : (2 : ℚ) ^ (t + 24) ≤ 2 ^ qexp q :=
        zpow_le_zpow_right₀ (by norm_num) (by omega)
      linarith
    · have hm24 : m = 2 ^ 24 := le_antisymm hm hmge
      have hq24 : q = ((2 ^ 23 : ℕ) : ℚ) * 2 ^ (t + 1) := by
        rw [hq, hm24]
        push_cast
        rw [show (2 : ℚ) ^ (t + 1) = 2 ^ t * 2 from by
          rw [zpow_add₀ (by norm_num : (2:ℚ) ≠ 0)]; norm_num]
        ring
      apply rneQprec24_exact_aux hq24 (by positivity)
      have hqval : q = (2 : ℚ) ^ (t + 24) := by
        rw [hq, hm24]
        push_cast
        rw [show ((16777216 : ℚ)) = 2 ^ (24 : ℤ) from by norm_num, zpow_merge,
          show (24 : ℤ) + t = t + 24 from by ring]
      obtain ⟨he1, he2⟩ := qexp_spec (show (0:ℚ) < q from by rw [hq]; positivity)
      by_contra hc
      push_neg at hc
      have hle2 : (2 : ℚ) ^ (t + 25) ≤ 2 ^ qexp q :=
        zpow_le_zpow_right₀ (by norm_num) (by omega)
      have hlt2 : (2 : ℚ) ^ (t + 24) < 2 ^ (t + 25) :=
        zpow_lt_zpow_right₀ (by norm_num) (by omega)
      linarith
theorem qexp_q0 : qexp (1 / ((2:ℚ) ^ 32 - 1)) = -32 := by
  apply qexp_unique
  · norm_num
  · norm_num
  · norm_num
theorem rneQprec53_q0 :
    rneQprec 53 (1 / ((2:ℚ) ^ 32 - 1)) = ((4503599628419072 : ℤ) : ℚ) * 2 ^ (-84 : ℤ) := by
  unfold rneQprec
  rw [qexp_q0, show ((53:ℕ):ℤ) - 1 - (-32) = 84 from by norm_num]
  rw [show rneZ (1 / ((2:ℚ) ^ 32 - 1) * 2 ^ (84:ℤ)) = 4503599628419072 from
    rneZ_eq_of_lt_half (by norm_num) (by norm_num) (by norm_num)]
theorem recip_eq : reciprocalF = ((2:ℚ) ^ (32:ℕ))⁻¹ := by
  unfold reciprocalF
  rw [rneQprec53_q0]
  unfold rneQprec
  rw [show qexp (((4503599628419072 : ℤ) : ℚ) * 2 ^ (-84 : ℤ)) = -32 from
    qexp_unique (-32) (by norm_num) (by norm_num) (by norm_num)]
  rw [show ((24:ℕ):ℤ) - 1 - (-32) = 55 from by norm_num]
  rw [show rneZ (((4503599628419072 : ℤ) : ℚ) * 2 ^ (-84 : ℤ) * 2 ^ (55:ℤ)) = 8388608 from
    rneZ_eq_of_lt_half (by norm_num) (by norm_num) (by norm_num)]
  norm_num
theorem rne_rep (n k : Nat) : ∃ m, rne n k = m * 2 ^ k ∧ m ≤ n / 2 ^ k + 1 := by
  unfold rne
  split_ifs
  exacts [⟨n / 2 ^ k, rfl, by omega⟩, ⟨n / 2 ^ k + 1, rfl, Nat.le_refl _⟩,
    ⟨n / 2 ^ k, rfl, by omega⟩, ⟨n / 2 ^ k + 1, rfl, Nat.le_refl _⟩]
theorem nlog2_ge {n k : Nat} (h : 2 ^ k ≤ n) : k ≤ nlog2 n := by
  have hs := nlog2_spec (n := n) (le_trans Nat.one_le_two_pow h)
  by_contra hc
  push_neg at hc
  have : 2 ^ (nlog2 n + 1) ≤ 2 ^ k := Nat.pow_le_pow_right (by norm_num) (by omega)
  omega
theorem nlog2_lt {n k : Nat} (h1 : 1 ≤ n) (h : n < 2 ^ k) : nlog2 n < k := by
  have hs := nlog2_spec h1
  by_contra hc
  push_neg at hc
  have : 2 ^ k ≤ 2 ^ nlog2 n := Nat.pow_le_pow_right (by norm_num) hc
  omega
theorem toF32_le_pow {n : Nat} (h1 : 1 ≤ n) : toF32 n ≤ 2 ^ (nlog2 n + 1) := by
  have hs := nlog2_spec h1
  by_cases h24 : n < 2 ^ 24
  · simp only [toF32, if_pos h24]; omega
  · simp only [toF32, if_neg h24]
    have hL24 : 24 ≤ nlog2 n := nlog2_ge (by omega)
    obtain ⟨m, hm, hle⟩ := rne_rep n (nlog2 n - 23)
    have h2 : n < 2 ^ (nlog2 n + 1 - (nlog2 n - 23)) * 2 ^ (nlog2 n - 23) := by
      rw [← pow_add, show nlog2 n + 1 - (nlog2 n - 23) + (nlog2 n - 23) = nlog2 n + 1
        from by omega]
      exact hs.2
    have hdiv : n / 2 ^ (nlog2 n - 23) < 2 ^ (nlog2 n + 1 - (nlog2 n - 23)) :=
      (Nat.div_lt_iff_lt_mul (Nat.two_pow_pos _)).mpr h2
    calc rne n (nlog2 n - 23) = m * 2 ^ (nlog2 n - 23) := hm
      _ ≤ 2 ^ (nlog2 n + 1 - (nlog2 n - 23)) * 2 ^ (nlog2 n - 23) :=
          Nat.mul_le_mul_right _ (by omega)
      _ = 2 ^ (nlog2 n + 1) := by rw [← pow_add]; congr 1; omega
theorem toF32_le {n : Nat} (hn : n < 2 ^ 32) : toF32 n ≤ 2 ^ 32 := by
  rcases Nat.eq_zero_or_pos n with h0 | h1
  · subst h0; norm_num [toF32]
  · have hb := toF32_le_pow h1
    have hlt : nlog2 n < 32 := nlog2_lt h1 hn
    calc toF32 n ≤ 2 ^ (nlog2 n + 1) := hb
      _ ≤ 2 ^ 32 := Nat.pow_le_pow_right (by norm_num) (by omega)
theorem toF32_rep {n : Nat} (hn : n < 2 ^ 32) :
    ∃ m k, toF32 n = m * 2 ^ k ∧ m ≤ 2 ^ 24 := by
  by_cases h24 : n < 2 ^ 24
  · exact ⟨n, 0, by simp only [toF32, if_pos h24]; omega, by omega⟩
  · have h1 : 1 ≤ n := by omega
    have hs := nlog2_spec h1
    have hL24 : 24 ≤ nlog2 n := nlog2_ge (by omega)
    obtain ⟨m, hm, hle⟩ := rne_rep n (nlog2 n - 23)
    refine ⟨m, nlog2 n - 23, ?_, ?_⟩
    · simp only [toF32, if_neg h24]
      exact hm
    · have h2 : n < 2 ^ 24 * 2 ^ (nlog2 n - 23) := by
        rw [← pow_add, show 24 + (nlog2 n - 23) = nlog2 n + 1 from by omega]
        exact hs.2
      have hdiv : n / 2 ^ (nlog2 n - 23) < 2 ^ 24 :=
        (Nat.div_lt_iff_lt_mul (Nat.two_pow_pos _)).mpr h2
      omega
theorem toF32_eq_top_iff {n : Nat} (hn : n < 2 ^ 32) :
    toF32 n = 2 ^ 32 ↔ 2 ^ 32 - 2 ^ 7 ≤ n := by
  by_cases h31 : n < 2 ^ 31
  · constructor
    · intro htop
      exfalso
      rcases Nat.eq_zero_or_pos n with h0 | h1
      · subst h0; norm_num [toF32] at htop
      · have h2 := toF32_le_pow h1
        have hlt : nlog2 n < 31 := nlog2_lt h1 h31
        have : toF32 n ≤ 2 ^ 31 :=
          le_trans h2 (Nat.pow_le_pow_right (by norm_num) (by omega))
        omega
    · intro hge
      exact absurd hge (by omega)
  · have h1 : 1 ≤ n := by omega
    have hL : nlog2 n = 31 := by
      have hge : 31 ≤ nlog2 n := nlog2_ge (by omega)
      have hlt : nlog2 n < 32 := nlog2_lt h1 hn
      omega
    have h24 : ¬ n < 2 ^ 24 := by omega
    simp only [toF32, if_neg h24, hL]
    show rne n 8 = 2 ^ 32 ↔ 2 ^ 32 - 2 ^ 7 ≤ n
    unfold rne
    split_ifs <;> omega
theorem rrVal (r : Nat) (hr : r < 2 ^ 32) :
    rneQprec 24 (reciprocalF * (toF32 r : ℚ)) = (toF32 r : ℚ) / 2 ^ (32 : ℕ) := by
  obtain ⟨m, k, hrep, hm⟩ := toF32_rep hr
  have hq2 : reciprocalF * (toF32 r : ℚ) = (m : ℚ) * 2 ^ ((k : ℤ) - 32) := by
    rw [recip_eq, hrep]
    push_cast
    rw [mul_comm (((2:ℚ) ^ (32:ℕ))⁻¹) _, mul_assoc,
      ← zpow_natCast (2:ℚ) k, ← zpow_natCast (2:ℚ) 32, ← zpow_neg, zpow_merge]
    norm_num
    exact Or.inl (by ring)
  rw [hq2, rneQprec_exact rfl hm, ← hq2, recip_eq]
  ring

theorem randomReal_val {p : Prng} (h : p.WF) :
    (p.randomReal).1 = (toF32 (p.random32).1 : ℚ) / 2 ^ (32 : ℕ) :=
  rrVal (p.random32).1 (random32_val_lt h)

theorem wrap32_eq {x y : Int} (hcong : (x - y) % 2 ^ 32 = 0)
    (h1 : -2 ^ 31 ≤ y) (h2 : y < 2 ^ 31) : wrap32 x = y := by
  unfold wrap32 toSigned
  split_ifs <;> omega

theorem randomRange_eq (i j : Int) (p : Prng) :
    p.randomRange i j =
      (wrap32 (min i j +
        toSigned ((p.random0toN (((max i j - min i j) % 2 ^ 32).toNat)).1)),
        (p.random0toN (((max i j - min i j) % 2 ^ 32).toNat)).2) := rfl

/-- C1: one call to random32 performs exactly the spec's bit-for-bit
xorshift128 sequence: with t initialized from the old d and s from the old a,
the new d is the old c, the new c is the old b, the new b is the old a, t is
updated by t ^= t << 11 then t ^= t >> 8, the new a is t ^ s ^ (s >> 19), the
returned value is the new a; shifts are logical and the wrapped left shift
keeps the value below 2^32. -/
theorem c1_random32_matches_xor128 (p : Prng) (h : p.WF) :
    ((p.random32).1 = (xor128Spec p._state).1 ∧
      (p.random32).2._state = (xor128Spec p._state).2) ∧
    (p.random32).1 = (p.random32).2._state.a ∧
    (p.random32).1 < 2 ^ 32 ∧
    (p.random32).2._state.b = p._state.a ∧
    (p.random32).2._state.c = p._state.b ∧
    (p.random32).2._state.d = p._state.c :=
  ⟨⟨rfl, rfl⟩, rfl, random32_val_lt h, rfl, rfl, rfl⟩

/-- C1 witness at the concrete reference state (1, 2, 3, 4). -/
theorem c1_random32_matches_xor128_witness :
    Prng.WF ⟨⟨1, 2, 3, 4⟩⟩ ∧
      (((Prng.random32 ⟨⟨1, 2, 3, 4⟩⟩).1 = (xor128Spec ⟨1, 2, 3, 4⟩).1 ∧
        (Prng.random32 ⟨⟨1, 2, 3, 4⟩⟩).2._state = (xor128Spec ⟨1, 2, 3, 4⟩).2) ∧
      (Prng.random32 ⟨⟨1, 2, 3, 4⟩⟩).1 =
        (Prng.random32 ⟨⟨1, 2, 3, 4⟩⟩).2._state.a ∧
      (Prng.random32 ⟨⟨1, 2, 3, 4⟩⟩).1 < 2 ^ 32 ∧
      (Prng.random32 ⟨⟨1, 2, 3, 4⟩⟩).2._state.b = 1 ∧
      (Prng.random32 ⟨⟨1, 2, 3, 4⟩⟩).2._state.c = 2 ∧
      (Prng.random32 ⟨⟨1, 2, 3, 4⟩⟩).2._state.d = 3) :=
  ⟨by decide, c1_random32_matches_xor128 ⟨⟨1, 2, 3, 4⟩⟩ (by decide)⟩

/-- C2: the seed-buffer constructor is deterministic (equal byte buffers give
equal generators) and never produces the all-zero state, for any buffer
including the empty one; when the hash output is all zeros the fixed
fallback perturbation (set bit 31 of word a) applies. -/
theorem c2_seed_deterministic_nonzero (s1 s2 : List Nat) (heq : s1 = s2) :
    Prng.mkSeed s1 = Prng.mkSeed s2 ∧
    (Prng.mkSeed s1)._state ≠ State.mk 0 0 0 0 := by
  subst heq
  refine ⟨rfl, ?_⟩
  unfold Prng.mkSeed
  split_ifs with hz
  · intro hc
    rw [show (Prng.mk ⟨2 ^ 31, (hashBuffer 0 s1).b, (hashBuffer 0 s1).c,
      (hashBuffer 0 s1).d⟩)._state = ⟨2 ^ 31, (hashBuffer 0 s1).b,
      (hashBuffer 0 s1).c, (hashBuffer 0 s1).d⟩ from rfl, State.mk.injEq] at hc
    omega
  · intro hc
    rw [show (Prng.mk (hashBuffer 0 s1))._state = hashBuffer 0 s1 from rfl] at hc
    rw [hc] at hz
    exact hz ⟨rfl, rfl, rfl, rfl⟩

/-- C2 witness at the empty seed buffer. -/
theorem c2_seed_deterministic_nonzero_witness :
    Prng.mkSeed [] = Prng.mkSeed [] ∧
    (Prng.mkSeed [])._state ≠ State.mk 0 0 0 0 :=
  c2_seed_deterministic_nonzero [] [] rfl

/-- C3: random(n) lands in [0, n-1] when n > 0, random(0) returns 0, and the
result is the high 32 bits of the 64-bit product of n with one fresh raw
32-bit output. -/
theorem c3_random_bounds_mulhigh (n : Nat) (p : Prng) (hn : n < 2 ^ 32)
    (h : p.WF) :
    (0 < n → (p.random n).1 < n) ∧
    (p.random 0).1 = 0 ∧
    (p.random n).1 = n * (p.random32).1 / 2 ^ 32 :=
  ⟨fun h0 => random_val_lt p h0 hn h, by simp [Prng.random],
    random_val_eq p hn h⟩

/-- C3 witness at n = 1000 and the reference state (1, 2, 3, 4). -/
theorem c3_random_bounds_mulhigh_witness :
    (1000 < 2 ^ 32 ∧ Prng.WF ⟨⟨1, 2, 3, 4⟩⟩) ∧
      ((0 < 1000 → (Prng.random 1000 ⟨⟨1, 2, 3, 4⟩⟩).1 < 1000) ∧
      (Prng.random 0 ⟨⟨1, 2, 3, 4⟩⟩).1 = 0 ∧
      (Prng.random 1000 ⟨⟨1, 2, 3, 4⟩⟩).1 =
        1000 * (Prng.random32 ⟨⟨1, 2, 3, 4⟩⟩).1 / 2 ^ 32) :=
  ⟨⟨by decide, by decide⟩,
    c3_random_bounds_mulhigh 1000 ⟨⟨1, 2, 3, 4⟩⟩ (by decide) (by decide)⟩

/-- C4: random0toN(n) lands in [0, n]; for n strictly below the uint32
maximum it equals the bounded draw on n + 1, and at n = 2^32 - 1 it returns
the raw 32-bit step output directly. -/
theorem c4_random0toN_bounds (n : Nat) (p : Prng) (hn : n < 2 ^ 32)
    (h : p.WF) :
    (p.random0toN n).1 ≤ n ∧
    (n < 2 ^ 32 - 1 → p.random0toN n = p.random (n + 1)) ∧
    (n = 2 ^ 32 - 1 → (p.random0toN n).1 = (p.random32).1) := by
  refine ⟨random0toN_val_le p hn h, fun hlt => ?_, fun hmax => ?_⟩
  · unfold Prng.random0toN
    rw [if_pos hlt]
  · subst hmax
    unfold Prng.random0toN
    rw [if_neg (lt_irrefl _)]

/-- C4 witness at n = 5 and the reference state (1, 2, 3, 4). -/
theorem c4_random0toN_bounds_witness :
    (5 < 2 ^ 32 ∧ Prng.WF ⟨⟨1, 2, 3, 4⟩⟩) ∧
      ((Prng.random0toN 5 ⟨⟨1, 2, 3, 4⟩⟩).1 ≤ 5 ∧
      (5 < 2 ^ 32 - 1 →
        Prng.random0toN 5 ⟨⟨1, 2, 3, 4⟩⟩ = Prng.random 6 ⟨⟨1, 2, 3, 4⟩⟩) ∧
      (5 = 2 ^ 32 - 1 →
        (Prng.random0toN 5 ⟨⟨1, 2, 3, 4⟩⟩).1 = (Prng.random32 ⟨⟨1, 2, 3, 4⟩⟩).1)) :=
  ⟨⟨by decide, by decide⟩,
    c4_random0toN_bounds 5 ⟨⟨1, 2, 3, 4⟩⟩ (by decide) (by decide)⟩

/-- C5: randomRange(i, j) lands in the inclusive range [min(i,j), max(i,j)],
is symmetric in its arguments, and equals the minimum plus a random0toN draw
on the unsigned difference max - min, with every wrapping reinterpretation
collapsing to exact integer arithmetic in range. -/
theorem c5_randomRange_bounds_symm (i j : Int) (p : Prng)
    (hi1 : -2 ^ 31 ≤ i) (hi2 : i < 2 ^ 31) (hj1 : -2 ^ 31 ≤ j) (hj2 : j < 2 ^ 31)
    (h : p.WF) :
    (min i j ≤ (p.randomRange i j).1 ∧ (p.randomRange i j).1 ≤ max i j) ∧
    p.randomRange i j = p.randomRange j i ∧
    (p.randomRange i j).1 =
      min i j + ((p.random0toN ((max i j - min i j).toNat)).1 : Int) := by
  have hd0 : (0 : Int) ≤ max i j - min i j := by omega
  have hd1 : max i j - min i j < 2 ^ 32 := by omega
  have hmod : (max i j - min i j) % 2 ^ 32 = max i j - min i j :=
    Int.emod_eq_of_lt hd0 hd1
  have hDlt : ((max i j - min i j).toNat) < 2 ^ 32 := by omega
  have hr := random0toN_val_le (n := (max i j - min i j).toNat) p hDlt h
  have hval : (p.randomRange i j).1 =
      min i j + ((p.random0toN ((max i j - min i j).toNat)).1 : Int) := by
    rw [randomRange_eq, hmod]
    apply wrap32_eq
    · unfold toSigned
      split_ifs <;> omega
    · omega
    · omega
  refine ⟨⟨?_, ?_⟩, ?_, hval⟩
  · rw [hval]; omega
  · rw [hval]; omega
  · rw [randomRange_eq, randomRange_eq, min_comm j i, max_comm j i]

/-- C5 witness at (i, j) = (10, -3) and the reference state (1, 2, 3, 4). -/
theorem c5_randomRange_bounds_symm_witness :
    (-2 ^ 31 ≤ (10 : Int) ∧ (10 : Int) < 2 ^ 31 ∧ -2 ^ 31 ≤ (-3 : Int) ∧
      (-3 : Int) < 2 ^ 31 ∧ Prng.WF ⟨⟨1, 2, 3, 4⟩⟩) ∧
      ((min (10 : Int) (-3) ≤ (Prng.randomRange 10 (-3) ⟨⟨1, 2, 3, 4⟩⟩).1 ∧
        (Prng.randomRange 10 (-3) ⟨⟨1, 2, 3, 4⟩⟩).1 ≤ max (10 : Int) (-3)) ∧
      Prng.randomRange 10 (-3) ⟨⟨1, 2, 3, 4⟩⟩ =
        Prng.randomRange (-3) 10 ⟨⟨1, 2, 3, 4⟩⟩ ∧
      (Prng.randomRange 10 (-3) ⟨⟨1, 2, 3, 4⟩⟩).1 =
        min (10 : Int) (-3) +
          ((Prng.random0toN ((max (10 : Int) (-3) - min (10 : Int) (-3)).toNat)
            ⟨⟨1, 2, 3, 4⟩⟩).1 : Int)) :=
  ⟨⟨by decide, by decide, by decide, by decide, by decide⟩,
    c5_randomRange_bounds_symm 10 (-3) ⟨⟨1, 2, 3, 4⟩⟩
      (by decide) (by decide) (by decide) (by decide) (by decide)⟩

/-- C6 counterexample: from the state (4294959105, 0, 0, 0) the raw step
output is 4294967294, which is not the maximum uint32 value, yet randomReal
returns exactly 1, because the float-precision reciprocal constant equals
2^-32 and the conversion of 4294967294 to float rounds up to 2^32.  This
refutes the claim that 1.0 is returned only when the raw output is
2^32 - 1. -/
theorem c6_randomReal_one_below_max_cex :
    (Prng.randomReal ⟨⟨4294959105, 0, 0, 0⟩⟩).1 = 1 ∧
    (Prng.random32 ⟨⟨4294959105, 0, 0, 0⟩⟩).1 = 4294967294 ∧
    (4294967294 : Nat) ≠ 2 ^ 32 - 1 := by
  refine ⟨?_, by decide, by decide⟩
  have h1 : (Prng.random32 ⟨⟨4294959105, 0, 0, 0⟩⟩).1 = 4294967294 := by decide
  show rneQprec 24 (reciprocalF *
    (toF32 (Prng.random32 ⟨⟨4294959105, 0, 0, 0⟩⟩).1 : ℚ)) = 1
  rw [h1, show toF32 4294967294 = 2 ^ 32 from by decide, recip_eq]
  rw [show ((2 : ℚ) ^ (32 : ℕ))⁻¹ * ((2 ^ 32 : ℕ) : ℚ) = ((1 : ℕ) : ℚ) * 2 ^ (0 : ℤ)
    from by push_cast; norm_num]
  rw [rneQprec_exact rfl (by norm_num)]
  norm_num

/-- C6 (amended): randomReal returns a value in [0, 1]; the value equals
toF32(r)/2^32 where r is one fresh raw 32-bit output and toF32 is the
binary32 rounding (the effective scale factor is the float value of
1/(2^32 - 1), which is exactly 2^-32, not 1/(2^32 - 1) itself); the result
equals 1 exactly when the raw output is at least 2^32 - 2^7 (not only at the
maximum); and the state advances by exactly one raw step. -/
theorem c6_randomReal_amended (p : Prng) (h : p.WF) :
    (0 ≤ (p.randomReal).1 ∧ (p.randomReal).1 ≤ 1) ∧
    ((p.randomReal).1 = 1 ↔ 2 ^ 32 - 2 ^ 7 ≤ (p.random32).1) ∧
    (p.randomReal).1 = (toF32 (p.random32).1 : ℚ) / 2 ^ (32 : ℕ) ∧
    (p.randomReal).2 = (p.random32).2 := by
  have hr : (p.random32).1 < 2 ^ 32 := random32_val_lt h
  have hv := randomReal_val h
  have hle := toF32_le hr
  have htop := toF32_eq_top_iff hr
  refine ⟨⟨?_, ?_⟩, ?_, hv, rfl⟩
  · rw [hv]; positivity
  · rw [hv, div_le_one (by positivity)]
    exact_mod_cast hle
  · rw [hv, div_eq_one_iff_eq (by norm_num : ((2 : ℚ) ^ (32 : ℕ)) ≠ 0)]
    constructor
    · intro hcast
      have hnat : toF32 (p.random32).1 = 2 ^ 32 := by exact_mod_cast hcast
      exact htop.mp hnat
    · intro hge
      have hnat : toF32 (p.random32).1 = 2 ^ 32 := htop.mpr hge
      exact_mod_cast hnat

/-- C6 witness at the reference state (1, 2, 3, 4). -/
theorem c6_randomReal_amended_witness :
    Prng.WF ⟨⟨1, 2, 3, 4⟩⟩ ∧
      ((0 ≤ (Prng.randomReal ⟨⟨1, 2, 3, 4⟩⟩).1 ∧
        (Prng.randomReal ⟨⟨1, 2, 3, 4⟩⟩).1 ≤ 1) ∧
      ((Prng.randomReal ⟨⟨1, 2, 3, 4⟩⟩).1 = 1 ↔
        2 ^ 32 - 2 ^ 7 ≤ (Prng.random32 ⟨⟨1, 2, 3, 4⟩⟩).1) ∧
      (Prng.randomReal ⟨⟨1, 2, 3, 4⟩⟩).1 =
        (toF32 (Prng.random32 ⟨⟨1, 2, 3, 4⟩⟩).1 : ℚ) / 2 ^ (32 : ℕ) ∧
      (Prng.randomReal ⟨⟨1, 2, 3, 4⟩⟩).2 = (Prng.random32 ⟨⟨1, 2, 3, 4⟩⟩).2) :=
  ⟨by decide, c6_randomReal_amended ⟨⟨1, 2, 3, 4⟩⟩ (by decide)⟩

/-- C7: the parameterized split leaves the source generator unchanged and is
a pure function of the source state and the parameter bytes: equal inputs
give children with identical output sequences, and the child is exactly the
hash of the serialized state and parameters, with no other input. -/
theorem c7_splitParam_pure_frame (p q : Prng) (params qparams : List Nat)
    (n : Nat) (hp : p = q) (hpar : params = qparams) :
    (p.splitParam params).2 = p ∧
    Prng.outSeq n (p.splitParam params).1 =
      Prng.outSeq n (q.splitParam qparams).1 ∧
    (p.splitParam params).1 =
      Prng.fromState (hashBuffer 2 (stateBytes p._state ++ params)) := by
  subst hp
  subst hpar
  exact ⟨rfl, rfl, rfl⟩

/-- C7 witness at the reference state (1, 2, 3, 4) and parameter buffer
(7, 9), comparing the first five outputs. -/
theorem c7_splitParam_pure_frame_witness :
    (((⟨⟨1, 2, 3, 4⟩⟩ : Prng) = ⟨⟨1, 2, 3, 4⟩⟩) ∧ ([7, 9] : List Nat) = [7, 9]) ∧
      ((Prng.splitParam ⟨⟨1, 2, 3, 4⟩⟩ [7, 9]).2 = ⟨⟨1, 2, 3, 4⟩⟩ ∧
      Prng.outSeq 5 (Prng.splitParam ⟨⟨1, 2, 3, 4⟩⟩ [7, 9]).1 =
        Prng.outSeq 5 (Prng.splitParam ⟨⟨1, 2, 3, 4⟩⟩ [7, 9]).1 ∧
      (Prng.splitParam ⟨⟨1, 2, 3, 4⟩⟩ [7, 9]).1 =
        Prng.fromState (hashBuffer 2 (stateBytes ⟨1, 2, 3, 4⟩ ++ [7, 9]))) :=
  ⟨⟨rfl, rfl⟩,
    c7_splitParam_pure_frame ⟨⟨1, 2, 3, 4⟩⟩ ⟨⟨1, 2, 3, 4⟩⟩ [7, 9] [7, 9] 5 rfl rfl⟩

/-- C8: state round-trip: rebuilding a generator from the exposed state gives
back the very same generator, so its next n outputs agree with the
original's for every n, and state() is a pure projection that does not
modify the generator. -/
theorem c8_state_roundtrip (g : Prng) (n : Nat) :
    Prng.fromState g.state = g ∧
    Prng.outSeq n (Prng.fromState g.state) = Prng.outSeq n g ∧
    g.state = g._state :=
  ⟨rfl, rfl, rfl⟩

/-- C9: the all-zero state is a fixed point: the constructor from an explicit
state accepts it unchanged (no validation), one step returns 0 and leaves
the state all zeros, and after any number of steps the state is still all
zeros with every output 0. -/
theorem c9_zero_state_fixed_point (n : Nat) :
    Prng.fromState ⟨0, 0, 0, 0⟩ = (⟨⟨0, 0, 0, 0⟩⟩ : Prng) ∧
    Prng.random32 (Prng.fromState ⟨0, 0, 0, 0⟩) =
      (0, Prng.fromState ⟨0, 0, 0, 0⟩) ∧
    Prng.stepN n (Prng.fromState ⟨0, 0, 0, 0⟩) = Prng.fromState ⟨0, 0, 0, 0⟩ ∧
    Prng.outSeq n (Prng.fromState ⟨0, 0, 0, 0⟩) = List.replicate n 0 := by
  refine ⟨rfl, rfl, ?_, ?_⟩
  · induction n with
    | zero => rfl
    | succ m ih => exact ih
  · induction n with
    | zero => rfl
    | succ m ih =>
      rw [List.replicate_succ]
      exact congrArg (List.cons 0) ih

/-- C10: a bounded draw advances the internal state exactly as one raw step
does, independently of the bound n, so each call to random consumes exactly
one raw 32-bit output. -/
theorem c10_random_advances_one_step (n m : Nat) (p : Prng) :
    (p.random n).2 = (p.random32).2 ∧ (p.random n).2 = (p.random m).2 :=
  ⟨rfl, rfl⟩
